import Mathlib

/-!
Shallow embedding of the multi-threaded HTTP multipart downloader
(src/queue.c and src/http.c) together with proofs about its
documented behaviour.

C strings are modelled as `List Char` (the characters up to the
terminating NUL).  The `strstr` library routine is modelled by
`findSub`, which returns the suffix of the haystack starting at the
first occurrence of the needle (matching the pointer `strstr`
returns), or `none` when `strstr` would return `NULL`.
-/

namespace Getter

/-- Model of C `strstr(hay, needle)`: the suffix of `hay` beginning at the
first occurrence of `needle`, or `none` when there is no occurrence. -/
def findSub : List Char → List Char → Option (List Char)
  | [], needle => if needle.isPrefixOf [] then some [] else none
  | c :: t, needle => if needle.isPrefixOf (c :: t) then some (c :: t) else findSub t needle

lemma isPrefixOf_true_iff {l₁ l₂ : List Char} : l₁.isPrefixOf l₂ = true ↔ l₁ <+: l₂ := by
  induction l₁ generalizing l₂ with
  | nil =>
    constructor
    · intro _
      exact ⟨l₂, rfl⟩
    · intro _
      cases l₂ <;> simp [List.isPrefixOf]
  | cons a as ih =>
    cases l₂ with
    | nil =>
      constructor
      · intro h
        exact absurd h (by simp [List.isPrefixOf])
      · rintro ⟨t, ht⟩
        simp at ht
    | cons b bs =>
      simp only [List.isPrefixOf, Bool.and_eq_true, beq_iff_eq, ih]
      constructor
      · rintro ⟨hab, t, ht⟩
        exact ⟨t, by simp [hab, ht]⟩
      · rintro ⟨t, ht⟩
        simp only [List.cons_append] at ht
        injection ht with h1 h2
        exact ⟨h1, t, h2⟩

lemma findSub_of_isPrefixOf {hay needle : List Char} (h : needle.isPrefixOf hay = true) :
    findSub hay needle = some hay := by
  cases hay <;> simp [findSub, h]

lemma findSub_eq_none {hay needle : List Char} (h : ¬ needle <:+: hay) :
    findSub hay needle = none := by
  induction hay with
  | nil =>
    have hp : needle.isPrefixOf ([] : List Char) = false := by
      cases hn : needle with
      | nil => exact absurd ⟨[], [], by simp [hn]⟩ h
      | cons c t => rfl
    simp [findSub, hp]
  | cons c t ih =>
    have hp : needle.isPrefixOf (c :: t) = false := by
      cases hb : needle.isPrefixOf (c :: t) with
      | false => rfl
      | true =>
        obtain ⟨u, hu⟩ := isPrefixOf_true_iff.mp hb
        exact absurd ⟨[], u, by simp [hu]⟩ h
    have hnt : ¬ needle <:+: t := by
      rintro ⟨x, y, hxy⟩
      exact h ⟨c :: x, y, by simp [hxy]⟩
    simp [findSub, hp, ih hnt]

lemma findSub_first {needle a b : List Char} :
    ∀ hay, hay = a ++ needle ++ b →
    (∀ i, i < a.length → ¬ needle <+: hay.drop i) →
    findSub hay needle = some (needle ++ b) := by
  induction a with
  | nil =>
    intro hay hhay _
    subst hhay
    rw [List.nil_append]
    exact findSub_of_isPrefixOf (isPrefixOf_true_iff.mpr ⟨b, rfl⟩)
  | cons c a' ih =>
    intro hay hhay hmin
    subst hhay
    have h0 : ¬ needle <+: (c :: a') ++ needle ++ b := by
      have := hmin 0 (by simp)
      simpa using this
    have hp : needle.isPrefixOf ((c :: a') ++ needle ++ b) = false := by
      cases hb : needle.isPrefixOf ((c :: a') ++ needle ++ b) with
      | false => rfl
      | true => exact absurd (isPrefixOf_true_iff.mp hb) h0
    have hstep : (c :: a') ++ needle ++ b = c :: (a' ++ needle ++ b) := by simp
    rw [hstep]
    simp only [findSub]
    rw [if_neg (by rw [← hstep, hp]; simp)]
    refine ih (a' ++ needle ++ b) rfl ?_
    intro i hi
    have := hmin (i + 1) (by simpa using Nat.succ_lt_succ hi)
    simpa using this

lemma findSub_isSome_iff {hay needle : List Char} :
    (findSub hay needle).isSome = true ↔ needle <:+: hay := by
  induction hay with
  | nil =>
    cases hn : needle with
    | nil =>
      constructor
      · intro _
        exact ⟨[], [], rfl⟩
      · intro _
        decide
    | cons c t =>
      rw [findSub_eq_none]
      · simp only [Option.isSome_none, Bool.false_eq_true, false_iff]
        rintro ⟨x, y, hxy⟩
        simp [hn] at hxy
      · rintro ⟨x, y, hxy⟩
        simp [hn] at hxy
  | cons c t ih =>
    cases hp : needle.isPrefixOf (c :: t) with
    | true =>
      rw [findSub_of_isPrefixOf hp]
      simp only [Option.isSome_some, true_iff]
      obtain ⟨u, hu⟩ := isPrefixOf_true_iff.mp hp
      exact ⟨[], u, by simp [hu]⟩
    | false =>
      have hstep : findSub (c :: t) needle = findSub t needle := by
        simp [findSub, hp]
      rw [hstep, ih]
      constructor
      · rintro ⟨x, y, hxy⟩
        exact ⟨c :: x, y, by simp [hxy]⟩
      · rintro ⟨x, y, hxy⟩
        cases x with
        | nil =>
          refine absurd (isPrefixOf_true_iff.mpr ⟨y, by simpa using hxy⟩) (by simp [hp])
        | cons d x' =>
          simp only [List.cons_append] at hxy
          injection hxy with h1 h2
          exact ⟨x', y, h2⟩

/-! ## queue.c

The queue stores its items in the dense prefix `task[0 .. size-1]` of a
heap array, with `size` the occupied count and the semaphores `empty`
(free slots, initialised to the capacity) and `full` (occupied slots,
initialised to 0) gating the two operations.  In the sequential model a
queue state is the list of occupied slots plus the configured capacity;
an operation that would block (a `sem_wait` that cannot proceed, i.e. a
put on a full queue or a get on an empty one) is modelled as `none`. -/

structure Queue (α : Type) where
  capacity : Int
  task : List α
deriving DecidableEq

/-- Embedding of `queue_alloc` (queue.c lines 36-46): no validation of the
requested size is performed — the function unconditionally builds a queue
with `size = 0` (empty) for whatever capacity it is handed.  The `Option`
result records whether a queue is returned at all (`none` would model
failing/`NULL`); the source always returns one. -/
def queue_alloc (α : Type) (size : Int) : Option (Queue α) :=
  some ⟨size, []⟩

/-- Embedding of `queue_put` (queue.c lines 76-90): waits on the `empty`
semaphore (a free slot: `size < capacity`), then appends the item at
index `size` and increments `size`.  `none` models the blocked case. -/
def queue_put {α : Type} (q : Queue α) (item : α) : Option (Queue α) :=
  if (q.task.length : Int) < q.capacity then
    some ⟨q.capacity, q.task ++ [item]⟩
  else
    none

/-- Embedding of `queue_get` (queue.c lines 104-128): waits on the `full`
semaphore (an occupied slot: `size > 0`), takes `task[0]`, shifts the
remaining items left one slot and decrements `size`.  `none` models the
blocked case. -/
def queue_get {α : Type} (q : Queue α) : Option (α × Queue α) :=
  match q.task with
  | [] => none
  | a :: rest => some (a, ⟨q.capacity, rest⟩)

/-- A sequence of completed `queue_put` calls, in order. -/
def putAll {α : Type} : Queue α → List α → Option (Queue α)
  | q, [] => some q
  | q, a :: rest =>
    match queue_put q a with
    | none => none
    | some q' => putAll q' rest

/-- A sequence of `n` completed `queue_get` calls, returning the items
in the order the calls returned them. -/
def getN {α : Type} : Queue α → Nat → Option (List α × Queue α)
  | q, 0 => some ([], q)
  | q, n + 1 =>
    match queue_get q with
    | none => none
    | some (a, q') =>
      match getN q' n with
      | none => none
      | some (l, q'') => some (a :: l, q'')

/-- One completed queue operation (a put that found a free slot or a get
that found an item). -/
inductive queue_step {α : Type} : Queue α → Queue α → Prop
  | put (q q' : Queue α) (a : α) (h : queue_put q a = some q') : queue_step q q'
  | get (q q' : Queue α) (a : α) (h : queue_get q = some (a, q')) : queue_step q q'

/-- States reachable by any sequence of completed queue operations. -/
def queue_reachable {α : Type} : Queue α → Queue α → Prop :=
  Relation.ReflTransGen queue_step

/-! ## http.c -/

/-- The `Buffer` type of http.h: a byte buffer (`data`, modelled as the
characters of the C string) and its length counter. -/
structure Buffer where
  data : List Char
  length : Nat
deriving DecidableEq

/-- The header/body separator searched for by `http_get_content`. -/
def headerSep : List Char := "\r\n\r\n".toList

/-- Embedding of `http_get_content` (http.c lines 167-177): `strstr` the
response data for `"\r\n\r\n"`; when found, return the offset four bytes
past the start of the match, otherwise return the whole buffer. -/
def http_get_content (response : Buffer) : List Char :=
  match findSub response.data headerSep with
  | some s => s.drop 4
  | none => response.data

/-- The header name searched for by `get_content_size_by_head`. -/
def contentLengthHdr : List Char := "Content-Length:".toList

/-- The characters strictly before the first `'\n'`, or `none` when there
is no `'\n'` (the case where `strstr(content_length, "\n")` returns `NULL`
and the subsequent write through it crashes). -/
def takeLine : List Char → Option (List Char)
  | [] => none
  | c :: t => if c = '\n' then some [] else (takeLine t).map (fun l => c :: l)

/-- Model of `atoi` applied to a string consisting solely of decimal
digits: its base-10 value (`atoi("") = 0` matches the empty fold). -/
def digitsToNat (l : List Char) : Nat :=
  l.foldl (fun acc c => acc * 10 + (c.toNat - '0'.toNat)) 0

/-- Embedding of `get_content_size_by_head` (http.c lines 211-232):
`strstr` for `"Content-Length:"`, truncate at the following `'\n'`, keep
only the decimal digits of that stretch and convert with `atoi`.  `none`
models the paths where `strstr` returns `NULL` and the code dereferences
it (no header, or no newline after the header): the function never
returns a value there. -/
def get_content_size_by_head (response : Buffer) : Option Nat :=
  match findSub response.data contentLengthHdr with
  | none => none
  | some s =>
    match takeLine s with
    | none => none
    | some line => some (digitsToNat (line.filter Char.isDigit))

/-- The header searched for at http.c line 310. -/
def acceptRangesHdr : List Char := "Accept-Ranges: bytes".toList

/-- Embedding of the range-support check of `get_num_tasks` (http.c
line 310): `is_accept_ranges = strstr(response->data, "Accept-Ranges: bytes")`,
used as a boolean — true iff the substring occurs anywhere in the buffer. -/
def is_accept_ranges (response : Buffer) : Bool :=
  (findSub response.data acceptRangesHdr).isSome

/-- The header section of a response in the sense of the specification:
the bytes strictly before the first `"\r\n\r\n"` (the whole buffer when
there is no separator).  Used only to state claims about "the header
section"; the source itself never isolates it. -/
def headerSection (data : List Char) : List Char :=
  match findSub data headerSep with
  | some s => data.take (data.length - s.length)
  | none => data

/-- Embedding of `calc_tasks` (http.c lines 242-256).  The C function
returns the task count and stores the chunk size in the global
`max_chunk_size`; the pair collects both: `.1` is the returned `tasks`,
`.2` the value of `max_chunk_size` after the call.  `is_accept_ranges`
is the NULL-ness of the `char*` argument. -/
def calc_tasks (is_accept_ranges : Bool) (content_size threads : Nat) : Nat × Nat :=
  let tasks := threads
  if is_accept_ranges then
    (tasks, content_size / tasks)
  else
    (1, content_size)

/-- Embedding of `get_max_chunk_size` (http.c lines 327-329) given the
`calc_tasks` result that last set the global. -/
def get_max_chunk_size (plan : Nat × Nat) : Nat := plan.2

/-- Embedding of the URL split in `http_url` (http.c lines 187-204),
for URLs shorter than the 1024-byte `host` buffer: find the first `'/'`,
cut the host there and take the rest as the page; `none` models the
no-slash branch, which returns `NULL` without opening a connection. -/
def http_url (url : List Char) : Option (List Char × List Char) :=
  match findSub url ['/'] with
  | some s => some (url.take (url.length - s.length), s.drop 1)
  | none => none

/-- Embedding of the URL split in `get_num_tasks` (http.c lines 272-282),
for URLs shorter than the 1024-byte `host` buffer.  Unlike `http_url`,
the no-slash branch only prints a message and FALLS THROUGH: the function
goes on to `client_socket`/`pack_http_request` with `host` the whole URL
and `page` still `NULL` (modelled as `none` in the second component). -/
def get_num_tasks_request (url : List Char) : List Char × Option (List Char) :=
  match findSub url ['/'] with
  | some s => (url.take (url.length - s.length), some (s.drop 1))
  | none => (url, none)

/-- Outcome of a C routine that may terminate the whole process with
`exit(code)` instead of returning. -/
inductive ExitOr (α : Type) where
  | exit (code : Nat) : ExitOr α
  | ok (val : α) : ExitOr α
deriving DecidableEq

/-- Embedding of `client_socket` (http.c lines 21-49): on a failed
`connect` the process is terminated with `exit(1)`; otherwise the socket
is returned.  `connect_ok` models the outcome of the `connect` syscall. -/
def client_socket (connect_ok : Bool) : ExitOr Unit :=
  if connect_ok then ExitOr.ok () else ExitOr.exit 1

/-- Embedding of `send_http_request` (http.c lines 96-104): a negative
`write` result terminates the process with `exit(1)`; otherwise the byte
count is returned.  `write_ok` models the outcome of the `write` syscall,
`count` its return value on success. -/
def send_http_request (write_ok : Bool) (count : Nat) : ExitOr Nat :=
  if write_ok then ExitOr.ok count else ExitOr.exit 1

/-- Embedding of `http_query` (http.c lines 119-156): connect (terminating
the process on failure), send the request (likewise), then read chunks
into a freshly allocated `Buffer` until `read` returns 0 or negative,
appending each chunk and adding its size to `length`; finally return the
buffer — unconditionally non-NULL (`some`).  `chunks` is the list of
successful reads delivered by the socket. -/
def http_query (connect_ok write_ok : Bool) (req_len : Nat) (chunks : List (List Char)) :
    ExitOr (Option Buffer) :=
  match client_socket connect_ok with
  | ExitOr.exit c => ExitOr.exit c
  | ExitOr.ok _ =>
    match send_http_request write_ok req_len with
    | ExitOr.exit c => ExitOr.exit c
    | ExitOr.ok _ => ExitOr.ok (some ⟨chunks.flatten, chunks.flatten.length⟩)

/-! ## Supporting lemmas about the queue model -/

lemma putAll_eq {α : Type} : ∀ (L : List α) (q : Queue α),
    ((q.task.length + L.length : Nat) : Int) ≤ q.capacity →
    putAll q L = some ⟨q.capacity, q.task ++ L⟩ := by
  intro L
  induction L with
  | nil =>
    intro q _
    simp [putAll]
  | cons a rest ih =>
    intro q h
    simp only [List.length_cons] at h
    have hg : (q.task.length : Int) < q.capacity := by
      push_cast at h
      omega
    simp only [putAll, queue_put, if_pos hg]
    have hstep := ih ⟨q.capacity, q.task ++ [a]⟩ (by
      simp only [List.length_append, List.length_cons, List.length_nil]
      push_cast at h ⊢
      omega)
    rw [hstep]
    simp

lemma getN_eq {α : Type} : ∀ (L : List α) (k : Int),
    getN (⟨k, L⟩ : Queue α) L.length = some (L, ⟨k, []⟩) := by
  intro L
  induction L with
  | nil =>
    intro k
    simp [getN]
  | cons a rest ih =>
    intro k
    simp [getN, queue_get, ih]

lemma queue_reach_inv {α : Type} {q0 q : Queue α} (h : queue_reachable q0 q)
    (h0 : (q0.task.length : Int) ≤ q0.capacity) :
    q.capacity = q0.capacity ∧ (q.task.length : Int) ≤ q0.capacity := by
  induction h with
  | refl => exact ⟨rfl, h0⟩
  | tail _ hstep ih =>
    obtain ⟨hcap, hlen⟩ := ih
    cases hstep with
    | put a hput =>
      simp only [queue_put] at hput
      split at hput
      case isTrue hg =>
        injection hput with hp
        subst hp
        refine ⟨hcap, ?_⟩
        rw [hcap] at hg
        simp only [List.length_append, List.length_cons, List.length_nil]
        push_cast
        omega
      case isFalse => exact absurd hput (by simp)
    | get a hget =>
      simp only [queue_get] at hget
      split at hget
      · exact absurd hget (by simp)
      · rename_i a' rest heq
        simp only [Option.some.injEq, Prod.mk.injEq] at hget
        obtain ⟨rfl, rfl⟩ := hget
        refine ⟨hcap, ?_⟩
        rw [heq] at hlen
        simp only [List.length_cons] at hlen
        push_cast at hlen ⊢
        omega

/-! ## Claims -/

/-- C1: for every content size `c ≥ 0` and thread count `t ≥ 1`, when the
probed response advertises range support `calc_tasks` plans `t` tasks of
chunk size `c / t` (integer division), and without range support it plans
exactly 1 task of chunk size `c`. -/
theorem calc_tasks_partition (c t : Nat) (_h : 1 ≤ t) :
    calc_tasks true c t = (t, c / t) ∧ calc_tasks false c t = (1, c) := by
  exact ⟨by simp [calc_tasks], by simp [calc_tasks]⟩

/-- Witness for C1 at the spec's example: `c = 1000`, `t = 4` with range
support gives 4 tasks of chunk size 250; without range support 1 task of
chunk size 1000. -/
theorem calc_tasks_partition_witness :
    calc_tasks true 1000 4 = (4, 250) ∧ calc_tasks false 1000 4 = (1, 1000) := by
  have h := calc_tasks_partition 1000 4 (by decide)
  exact ⟨by rw [h.1], h.2⟩

/-- C7: for `content_size = 0` and every thread count `t ≥ 1`, the planner
still produces a degenerate plan with at least one task and chunk size 0,
whether or not the server advertises range support; the divisor used in
the range-supported branch is `t`, which is positive, so no division by
zero occurs. -/
theorem calc_tasks_zero_content (ar : Bool) (t : Nat) (h : 1 ≤ t) :
    1 ≤ (calc_tasks ar 0 t).1 ∧ (calc_tasks ar 0 t).2 = 0 ∧ 0 < t := by
  cases ar <;> simp [calc_tasks] <;> omega

/-- Witness for C7 at `t = 4`, both with and without range support. -/
theorem calc_tasks_zero_content_witness :
    (1 ≤ (calc_tasks true 0 4).1 ∧ (calc_tasks true 0 4).2 = 0 ∧ 0 < 4) ∧
    (1 ≤ (calc_tasks false 0 4).1 ∧ (calc_tasks false 0 4).2 = 0 ∧ 0 < 4) :=
  ⟨calc_tasks_zero_content true 4 (by decide), calc_tasks_zero_content false 4 (by decide)⟩

/-- C2: the queue is strict FIFO.  Starting from a freshly allocated
(empty) queue whose capacity admits them, a sequence of `queue_put`s of
`a₁ … aₙ` with no intervening `queue_get` leaves exactly `a₁ … aₙ` stored
in order, and `n` subsequent `queue_get`s return exactly `a₁, …, aₙ` —
no item duplicated or lost — emptying the queue; moreover every
`queue_get` removes and returns the current head item. -/
theorem queue_fifo {α : Type} (k : Int) (L : List α) (h : (L.length : Int) ≤ k) :
    putAll (⟨k, []⟩ : Queue α) L = some ⟨k, L⟩ ∧
    getN (⟨k, L⟩ : Queue α) L.length = some (L, ⟨k, []⟩) ∧
    (∀ (q : Queue α) (a : α) (rest : List α), q.task = a :: rest →
      queue_get q = some (a, ⟨q.capacity, rest⟩)) := by
  refine ⟨?_, getN_eq L k, ?_⟩
  · have := putAll_eq L ⟨k, []⟩ (by simpa using h)
    simpa using this
  · intro q a rest hq
    simp [queue_get, hq]

/-- Witness for C2: putting 10, 20, 30 into an empty queue of capacity 4
and getting three times returns 10, 20, 30 in order. -/
theorem queue_fifo_witness :
    putAll (⟨4, []⟩ : Queue Nat) [10, 20, 30] = some ⟨4, [10, 20, 30]⟩ ∧
    getN (⟨4, [10, 20, 30]⟩ : Queue Nat) 3 = some ([10, 20, 30], ⟨4, []⟩) ∧
    queue_get (⟨4, [10, 20, 30]⟩ : Queue Nat) = some (10, ⟨4, [20, 30]⟩) := by
  have h : _ ∧ _ ∧ _ := queue_fifo 4 ([10, 20, 30] : List Nat) (by decide)
  exact ⟨h.1, h.2.1, h.2.2 ⟨4, [10, 20, 30]⟩ 10 [20, 30] rfl⟩

/-- C3: boundedness invariant.  For a queue created with capacity `k > 0`,
after any sequence of completed `queue_put`/`queue_get` operations (a put
only proceeds into a free slot, a get only proceeds on a stored item) the
stored count satisfies `0 ≤ count ≤ k`; each completed `queue_put`
increases the count by exactly 1 and each completed `queue_get` decreases
it by exactly 1. -/
theorem queue_bounded (k : Int) (q : Queue Nat) (hk : 0 < k)
    (hreach : queue_reachable (⟨k, []⟩ : Queue Nat) q) :
    ((0 : Int) ≤ (q.task.length : Int) ∧ (q.task.length : Int) ≤ k) ∧
    (∀ (p p' : Queue Nat) (a : Nat), queue_put p a = some p' →
      p'.task.length = p.task.length + 1) ∧
    (∀ (p p' : Queue Nat) (a : Nat), queue_get p = some (a, p') →
      p.task.length = p'.task.length + 1) := by
  refine ⟨⟨by positivity, ?_⟩, ?_, ?_⟩
  · exact (queue_reach_inv hreach (by simp; omega)).2
  · intro p p' a hput
    simp only [queue_put] at hput
    split at hput
    case isTrue =>
      injection hput with hp
      subst hp
      simp
    case isFalse => exact absurd hput (by simp)
  · intro p p' a hget
    cases htask : p.task with
    | nil => simp [queue_get, htask] at hget
    | cons a' rest =>
      simp only [queue_get, htask, Option.some.injEq, Prod.mk.injEq] at hget
      obtain ⟨rfl, rfl⟩ := hget
      simp [htask]

/-- Witness for C3: one completed put into an empty capacity-2 queue
reaches a state of count 1 ≤ 2; a put grows [5] to [5, 7] (count 1 to 2)
and a get shrinks [5, 7] to [7] (count 2 to 1). -/
theorem queue_bounded_witness :
    ((0 : Int) ≤ (((⟨2, [7]⟩ : Queue Nat)).task.length : Int) ∧
      (((⟨2, [7]⟩ : Queue Nat)).task.length : Int) ≤ 2) ∧
    (⟨2, [5, 7]⟩ : Queue Nat).task.length = (⟨2, [5]⟩ : Queue Nat).task.length + 1 ∧
    (⟨2, [5, 7]⟩ : Queue Nat).task.length = (⟨2, [7]⟩ : Queue Nat).task.length + 1 := by
  have h := queue_bounded 2 ⟨2, [7]⟩ (by decide)
    (Relation.ReflTransGen.single (queue_step.put ⟨2, []⟩ ⟨2, [7]⟩ 7 (by decide)))
  exact ⟨h.1, h.2.1 ⟨2, [5]⟩ ⟨2, [5, 7]⟩ 7 (by decide), h.2.2 ⟨2, [5, 7]⟩ ⟨2, [7]⟩ 5 (by decide)⟩

/-- C8 counterexample: `queue_alloc` does not fail on a non-positive
capacity — at capacity `-1` (and `0`) it still returns a queue, so the
claim that every capacity ≤ 0 fails with `InvalidCapacity` is false of
the code, which performs no validation at all. -/
theorem queue_alloc_counterexample :
    queue_alloc Nat (-1) = some ⟨-1, []⟩ ∧ (queue_alloc Nat 0).isSome = true :=
  ⟨rfl, rfl⟩

/-- C8 as amended: `queue_alloc` performs no capacity validation.  For
every requested capacity — positive, zero or negative — it returns a new
empty queue (count 0) recording that capacity; it never fails. -/
theorem queue_alloc_amended (α : Type) (size : Int) :
    queue_alloc α size = some ⟨size, []⟩ := rfl

lemma takeLine_append {l r : List Char} (h : '\n' ∉ l) :
    takeLine (l ++ '\n' :: r) = some l := by
  induction l with
  | nil => simp [takeLine]
  | cons c t ih =>
    have hc : ¬ c = '\n' := fun hc => h (by simp [hc])
    have ht : '\n' ∉ t := fun hm => h (List.mem_cons_of_mem c hm)
    simp [takeLine, hc, ih ht]

/-- C4: when the response text holds no `Content-Length:` header,
`get_content_size_by_head` fails (the `strstr` result is `NULL` and the
function never returns a value) rather than returning a size; when the
header is present — first occurrence after a prefix `a`, followed on its
line by `b` up to the line's newline — the function returns exactly the
decimal digits of that line after `Content-Length:`, converted to an
integer. -/
theorem content_size_extraction (r : Buffer) :
    (¬ contentLengthHdr <:+: r.data → get_content_size_by_head r = none) ∧
    (∀ a b c, r.data = a ++ contentLengthHdr ++ b ++ '\n' :: c →
      (∀ i, i < a.length → ¬ contentLengthHdr <+: r.data.drop i) →
      '\n' ∉ b →
      get_content_size_by_head r = some (digitsToNat (b.filter Char.isDigit))) := by
  constructor
  · intro h
    simp [get_content_size_by_head, findSub_eq_none h]
  · intro a b c hdecomp hmin hb
    have hfind : findSub r.data contentLengthHdr = some (contentLengthHdr ++ (b ++ '\n' :: c)) := by
      refine findSub_first r.data ?_ hmin
      rw [hdecomp]
      simp [List.append_assoc]
    have hline : takeLine (contentLengthHdr ++ (b ++ '\n' :: c)) = some ((contentLengthHdr ++ b)) := by
      have hassoc : contentLengthHdr ++ (b ++ '\n' :: c) = (contentLengthHdr ++ b) ++ '\n' :: c := by
        simp
      rw [hassoc]
      refine takeLine_append ?_
      intro hm
      rcases List.mem_append.mp hm with h1 | h2
      · exact absurd h1 (by decide)
      · exact hb h2
    have hfilter : (contentLengthHdr ++ b).filter Char.isDigit = b.filter Char.isDigit := by
      rw [List.filter_append]
      rw [show contentLengthHdr.filter Char.isDigit = [] from by decide]
      simp
    simp [get_content_size_by_head, hfind, hline, hfilter]

/-- Witness for C4: a response without the header yields no size; the
spec's example header line `Content-Length: 54321` yields 54321. -/
theorem content_size_extraction_witness :
    get_content_size_by_head ⟨"HTTP/1.0 404\r\n\r\n".toList, 16⟩ = none ∧
    get_content_size_by_head ⟨"HTTP/1.0 200 OK\r\nContent-Length: 54321\r\n\r\n".toList, 43⟩ =
      some 54321 := by
  constructor
  · exact (content_size_extraction _).1 (by decide)
  · have h := (content_size_extraction
      ⟨"HTTP/1.0 200 OK\r\nContent-Length: 54321\r\n\r\n".toList, 43⟩).2
      "HTTP/1.0 200 OK\r\n".toList " 54321\r".toList "\r\n".toList
      (by decide) (by decide) (by decide)
    rw [h]
    decide

/-- C5 counterexample: range detection is a substring search over the
whole response buffer, not over the header section.  For a buffer whose
header section lacks an `Accept-Ranges: bytes` line but whose body
contains the text, the code still reports range support — refuting the
claim that detection is true iff the header section has the line. -/
theorem accept_ranges_counterexample :
    is_accept_ranges
      ⟨"HTTP/1.0 200 OK\r\nContent-Length: 4\r\n\r\nAccept-Ranges: bytes".toList, 59⟩ = true ∧
    ¬ acceptRangesHdr <:+:
      headerSection "HTTP/1.0 200 OK\r\nContent-Length: 4\r\n\r\nAccept-Ranges: bytes".toList := by
  constructor
  · decide
  · decide

/-- C5 as amended: range-support detection returns true iff the substring
`Accept-Ranges: bytes` occurs anywhere in the response buffer (header
section or body alike); a buffer without that substring anywhere is
treated as not supporting ranges. -/
theorem accept_ranges_amended (r : Buffer) :
    is_accept_ranges r = true ↔ acceptRangesHdr <:+: r.data := by
  unfold is_accept_ranges
  exact findSub_isSome_iff

/-- Witness for C5 (amended): applying the equivalence at a concrete
buffer that advertises ranges in its header section. -/
theorem accept_ranges_amended_witness :
    acceptRangesHdr <:+: ("HTTP/1.0 200 OK\r\nAccept-Ranges: bytes\r\n\r\nhi".toList) :=
  (accept_ranges_amended ⟨"HTTP/1.0 200 OK\r\nAccept-Ranges: bytes\r\n\r\nhi".toList, 44⟩).mp
    (by decide)

/-- C6: `http_get_content` returns the bytes after the first occurrence
of the `\r\n\r\n` separator; on a buffer with no separator it returns the
whole buffer unchanged, hence it is the identity on pure-body buffers and
idempotent on them. -/
theorem http_get_content_split (r : Buffer) :
    (¬ headerSep <:+: r.data →
      http_get_content r = r.data ∧
      http_get_content ⟨http_get_content r, (http_get_content r).length⟩ =
        http_get_content r) ∧
    (∀ a b, r.data = a ++ headerSep ++ b →
      (∀ i, i < a.length → ¬ headerSep <+: r.data.drop i) →
      http_get_content r = b) := by
  constructor
  · intro h
    have h1 : http_get_content r = r.data := by
      simp [http_get_content, findSub_eq_none h]
    refine ⟨h1, ?_⟩
    rw [h1]
    simp [http_get_content, findSub_eq_none h]
  · intro a b hdecomp hmin
    have hfind := findSub_first r.data hdecomp hmin
    have hsep : (headerSep : List Char) = ['\r', '\n', '\r', '\n'] := by decide
    simp only [http_get_content]
    rw [hfind]
    rw [show headerSep ++ b = '\r' :: '\n' :: '\r' :: '\n' :: b from by rw [hsep]; rfl]
    rfl

/-- Witness for C6: a separator-free buffer comes back unchanged (twice),
and a buffer with a header section is cut just past the separator. -/
theorem http_get_content_split_witness :
    http_get_content ⟨"pure body".toList, 9⟩ = "pure body".toList ∧
    http_get_content ⟨http_get_content ⟨"pure body".toList, 9⟩,
      (http_get_content ⟨"pure body".toList, 9⟩).length⟩ =
      http_get_content ⟨"pure body".toList, 9⟩ ∧
    http_get_content ⟨"A: b\r\n\r\nBODY".toList, 12⟩ = "BODY".toList := by
  have h1 := (http_get_content_split ⟨"pure body".toList, 9⟩).1 (by decide)
  have h2 := (http_get_content_split ⟨"A: b\r\n\r\nBODY".toList, 12⟩).2
    "A: b".toList "BODY".toList (by decide) (by decide)
  exact ⟨h1.1, h1.2, h2⟩

/-- C9 evidence: for a URL with no `/` separator, `http_url` returns
`NULL` without issuing a request, but the split phase of `get_num_tasks`
still proceeds — it goes on to open the connection and build the request
with the whole URL as host and a `NULL` page (second component `none`),
instead of failing with `UrlFormatError` as `http_url` does and as the
specification requires. -/
theorem url_split_divergence :
    http_url "www.canterbury.ac.nz".toList = none ∧
    get_num_tasks_request "www.canterbury.ac.nz".toList =
      ("www.canterbury.ac.nz".toList, none) := by
  constructor
  · decide
  · decide

/-- C10: whenever `http_query` returns to its caller, the result is a
non-NULL buffer holding everything read (a zero-read exchange yields a
length-0 buffer); a failed connect or a failed request write never
surfaces as a NULL/error return — those paths terminate the process with
`exit(1)` inside `client_socket` or `send_http_request`. -/
theorem http_query_nonnull :
    (∀ (c w : Bool) (n : Nat) (chunks : List (List Char)),
      http_query c w n chunks ≠ ExitOr.ok none) ∧
    (∀ (n : Nat) (chunks : List (List Char)),
      http_query true true n chunks =
        ExitOr.ok (some ⟨chunks.flatten, chunks.flatten.length⟩)) ∧
    (∀ (w : Bool) (n : Nat) (chunks : List (List Char)),
      http_query false w n chunks = ExitOr.exit 1) ∧
    (∀ (n : Nat) (chunks : List (List Char)),
      http_query true false n chunks = ExitOr.exit 1) ∧
    http_query true true 0 [] = ExitOr.ok (some ⟨[], 0⟩) := by
  refine ⟨?_, fun n chunks => rfl, fun w n chunks => rfl, fun n chunks => rfl, rfl⟩
  intro c w n chunks h
  cases c <;> cases w <;> simp [http_query, client_socket, send_http_request] at h

/-- Witness for C10: a successful exchange returns the concatenated
reads as a non-NULL buffer, and a failed connect exits the process. -/
theorem http_query_nonnull_witness :
    http_query true true 7 [['a', 'b'], ['c']] = ExitOr.ok (some ⟨['a', 'b', 'c'], 3⟩) ∧
    http_query false true 7 [] = ExitOr.exit 1 := by
  have h := http_query_nonnull
  constructor
  · rw [h.2.1 7 [['a', 'b'], ['c']]]
    decide
  · exact h.2.2.1 true 7 []

end Getter
